import Mathlib

/-!
Verification of the evolutionary-computing engine (`evo.py`).

The engine keeps a population as a dictionary from an *evaluation vector*
(an ordered tuple of `(objective-name, score)` pairs) to the solution that
produced it.  We embed evaluation vectors as `List (String × Int)` (the
domain objective functions return integer counts; only the ordering of
scores matters to the engine), dictionaries as association lists, Python
sets as `Finset`, and a Python call that can raise as an `Option` result
(`none` = an exception escaped).
-/

/-- An evaluation vector: `((name1, obj1), (name2, obj2), ...)`. -/
abbrev EvalVec := List (String × Int)

/-- A solution: a binary matrix, embedded as a list of rows. -/
abbrev Sol := List (List Int)

/-- Python's `min` over a list: `none` on the empty list (where `min([])`
raises `ValueError`). -/
def listMin : List Int → Option Int
  | [] => none
  | x :: xs => some (xs.foldl min x)

/-- Python's `max` over a list: `none` on the empty list. -/
def listMax : List Int → Option Int
  | [] => none
  | x :: xs => some (xs.foldl max x)

/-- The list `score_diffs` computed inside `Environment._dominates`:
`list(map(lambda x, y: y - x, pscores, qscores))`, where
`pscores`/`qscores` are the scores of `p`/`q`.  Python's two-argument
`map` truncates at the shorter list, as `List.zipWith` does. -/
def score_diffs (p q : EvalVec) : List Int :=
  List.zipWith (fun x y => y - x) (p.map Prod.snd) (q.map Prod.snd)

/-- `Environment._dominates(p, q)`: `min_diff >= 0.0 and max_diff > 0.0`.
Result `none` embeds the `ValueError` that `min([])` raises when the
diff list is empty (i.e. when `p` or `q` is the empty vector). -/
def dominates_opt (p q : EvalVec) : Option Bool :=
  match listMin (score_diffs p q), listMax (score_diffs p q) with
  | some min_diff, some max_diff => some (decide (0 ≤ min_diff) && decide (0 < max_diff))
  | _, _ => none

/-- The Boolean predicate "the call `_dominates(p, q)` returned `True`".
On non-empty vectors (the only vectors the engine ever builds when at
least one objective is registered) this is exactly `_dominates`. -/
def dominates (p q : EvalVec) : Bool := dominates_opt p q == some true

/-- A lower bound on a `min`-fold holds iff it bounds the seed and every
list element. -/
lemma le_foldl_min (c : Int) :
    ∀ (xs : List Int) (x : Int), c ≤ xs.foldl min x ↔ c ≤ x ∧ ∀ y ∈ xs, c ≤ y := by
  intro xs
  induction xs with
  | nil => simp
  | cons y ys ih =>
      intro x
      simp only [List.foldl_cons, ih, le_min_iff, List.mem_cons]
      constructor
      · rintro ⟨⟨hx, hy⟩, hall⟩
        exact ⟨hx, fun z hz => by rcases hz with rfl | hz; exact hy; exact hall z hz⟩
      · rintro ⟨hx, hall⟩
        exact ⟨⟨hx, hall y (Or.inl rfl)⟩, fun z hz => hall z (Or.inr hz)⟩

/-- A strict lower bound is beaten by a `max`-fold iff the seed or some
list element beats it. -/
lemma lt_foldl_max (c : Int) :
    ∀ (xs : List Int) (x : Int), c < xs.foldl max x ↔ c < x ∨ ∃ y ∈ xs, c < y := by
  intro xs
  induction xs with
  | nil => simp
  | cons y ys ih =>
      intro x
      simp only [List.foldl_cons, ih, lt_max_iff, List.mem_cons]
      constructor
      · rintro (⟨ha | hb⟩ | ⟨z, hz, hcz⟩)
        · exact Or.inl ha
        · exact Or.inr ⟨y, Or.inl rfl, hb⟩
        · exact Or.inr ⟨z, Or.inr hz, hcz⟩
      · rintro (ha | ⟨z, rfl | hz, hcz⟩)
        · exact Or.inl (Or.inl ha)
        · exact Or.inl (Or.inr hcz)
        · exact Or.inr ⟨z, hz, hcz⟩

/-- Master characterization of `_dominates`: the call returns `True` iff
every score difference is nonnegative and some score difference is
positive.  (On an empty diff list both sides are false: the call raises.) -/
lemma dominates_opt_iff (p q : EvalVec) :
    dominates_opt p q = some true ↔
      (∀ d ∈ score_diffs p q, 0 ≤ d) ∧ ∃ d ∈ score_diffs p q, 0 < d := by
  rcases hsd : score_diffs p q with _ | ⟨x, xs⟩
  · simp [dominates_opt, hsd, listMin, listMax]
  · simp only [dominates_opt, hsd, listMin, listMax, Option.some.injEq,
      Bool.and_eq_true, decide_eq_true_eq]
    rw [le_foldl_min, lt_foldl_max]
    simp only [List.mem_cons]
    constructor
    · rintro ⟨hmin, hmax⟩
      refine ⟨fun d hd => ?_, ?_⟩
      · rcases hd with rfl | hd
        · exact hmin.1
        · exact hmin.2 d hd
      · rcases hmax with hx | ⟨y, hy, hcy⟩
        · exact ⟨x, Or.inl rfl, hx⟩
        · exact ⟨y, Or.inr hy, hcy⟩
    · rintro ⟨hall, d, hd, hdpos⟩
      refine ⟨⟨hall x (Or.inl rfl), fun y hy => hall y (Or.inr hy)⟩, ?_⟩
      rcases hd with rfl | hd
      · exact Or.inl hdpos
      · exact Or.inr ⟨d, hd, hdpos⟩

/-- Boolean form of the characterization. -/
lemma dominates_iff (p q : EvalVec) :
    dominates p q = true ↔
      (∀ d ∈ score_diffs p q, 0 ≤ d) ∧ ∃ d ∈ score_diffs p q, 0 < d := by
  rw [← dominates_opt_iff]
  simp [dominates]

/-- Swapping the arguments negates every score difference. -/
lemma score_diffs_swap (p q : EvalVec) :
    score_diffs q p = (score_diffs p q).map (fun d => -d) := by
  unfold score_diffs
  generalize p.map Prod.snd = a
  generalize q.map Prod.snd = b
  induction a generalizing b with
  | nil => cases b <;> simp
  | cons x xs ih =>
      cases b with
      | nil => simp
      | cons y ys => simp [ih]

/-- The self-diff list is all zeros. -/
lemma score_diffs_self (p : EvalVec) : ∀ d ∈ score_diffs p p, d = 0 := by
  unfold score_diffs
  generalize p.map Prod.snd = a
  induction a with
  | nil => simp
  | cons x xs ih => simp [ih]

/-- `_dominates` never reports a vector as dominating itself. -/
lemma dominates_self (p : EvalVec) : dominates p p = false := by
  by_contra h
  have h' : dominates p p = true := by
    revert h; cases hd : dominates p p <;> simp
  obtain ⟨-, d, hd, hdpos⟩ := (dominates_iff p p).mp h'
  have := score_diffs_self p d hd
  omega

/-- `_dominates` is asymmetric wherever it returns `True`. -/
lemma dominates_asymm (p q : EvalVec) :
    ¬(dominates_opt p q = some true ∧ dominates_opt q p = some true) := by
  rintro ⟨hpq, hqp⟩
  obtain ⟨hall, d, hd, hdpos⟩ := (dominates_opt_iff p q).mp hpq
  obtain ⟨hall', -⟩ := (dominates_opt_iff q p).mp hqp
  have hneg : -d ∈ score_diffs q p := by
    rw [score_diffs_swap]
    exact List.mem_map.mpr ⟨d, hd, rfl⟩
  have := hall' (-d) hneg
  omega

/-- `Environment._reduce_nds(S, p) = S - {q for q in S if _dominates(p, q)}`. -/
def reduce_nds (S : Finset EvalVec) (p : EvalVec) : Finset EvalVec :=
  S \ S.filter (fun q => dominates p q)

/-- The non-dominated-set pass inside `Environment.remove_dominated`:
`reduce(self._reduce_nds, self.pop.keys(), self.pop.keys())` — a left fold
of `_reduce_nds` over the original key sequence, starting from the full
key set. -/
def remove_dominated_keys (keys : List EvalVec) : Finset EvalVec :=
  keys.foldl reduce_nds keys.toFinset

/-- The parsed content of `constraints.json`: objective name → maximum
permitted score. -/
abbrev ConstraintData := List (String × Int)

/-- The `for obj in k` loop of `Environment._fits_constraints`:
`if obj[1] > data[obj[0]]: return False`, else continue; `return True`
after the loop.  A key `obj[0]` absent from `data` makes `data[obj[0]]`
raise `KeyError`, embedded as `none`. -/
def fits_loop (data : ConstraintData) : EvalVec → Option Bool
  | [] => some true
  | obj :: rest =>
      match List.lookup obj.1 data with
      | none => none
      | some m => if m < obj.2 then some false else fits_loop data rest

/-- `Environment._fits_constraints(k)`.  The parameter `src` is the result
of `open('constraints.json')` + `json.load`: `none` when that load raised
(missing or malformed file), in which case the exception escapes (`none`
result). -/
def fits_constraints (src : Option ConstraintData) (k : EvalVec) : Option Bool :=
  match src with
  | none => none
  | some data => fits_loop data k

/-- The comprehension `{k for k in nds if Environment._fits_constraints(k)}`:
`none` as soon as one membership test raises. -/
def filter_fits (src : Option ConstraintData) : List EvalVec → Option (List EvalVec)
  | [] => some []
  | k :: rest =>
      match fits_constraints src k with
      | none => none
      | some true => (filter_fits src rest).map (fun l => k :: l)
      | some false => filter_fits src rest

/-- The population dictionary: evaluation vector → solution, as an
insertion-ordered association list (a Python `dict`). -/
abbrev Pop := List (EvalVec × Sol)

/-- `self.pop[k] = v`: overwrite in place if the key exists, else append. -/
def dict_set (pop : Pop) (k : EvalVec) (v : Sol) : Pop :=
  if pop.any (fun kv => kv.1 == k) then
    pop.map (fun kv => if kv.1 == k then (k, v) else kv)
  else pop ++ [(k, v)]

/-- `Environment.remove_dominated`: compute the non-dominated key set,
keep the keys that fit the constraints, rebuild the population from the
surviving keys.  `none` embeds an exception escaping (a failed
constraints load, or a `KeyError` on an unconstrained objective).  The
set `nds` is enumerated as the original key sequence restricted to it
(Python iterates the set in an arbitrary order; `_fits_constraints` is
pure, so only which keys are tested matters). -/
def remove_dominated (pop : Pop) (src : Option ConstraintData) : Option Pop :=
  let keys := pop.map Prod.fst
  let nds := remove_dominated_keys keys
  match filter_fits src (keys.filter (fun k => decide (k ∈ nds))) with
  | none => none
  | some new => some (pop.filter (fun kv => new.contains kv.1))

/-- The merge half of the sync step in `Environment.evolve`: `try` to load
`solutions.dat` and write every loaded `(eval, sol)` pair into the
population; on any exception (`loaded = none`) the handler just prints
the error and the population is left as it was. -/
def sync_merge (pop : Pop) (loaded : Option Pop) : Pop :=
  match loaded with
  | some l => l.foldl (fun acc kv => dict_set acc kv.1 kv.2) pop
  | none => pop

/-- The whole `if i % sync == 0` block of `Environment.evolve`: merge the
checkpoint (if readable), then `remove_dominated`, then save; the result
is both the new in-memory population and the value pickled back to
`solutions.dat`. -/
def sync_step (pop : Pop) (loaded : Option Pop) (src : Option ConstraintData) :
    Option Pop :=
  remove_dominated (sync_merge pop loaded) src

/-- `copy.deepcopy` on a solution matrix: a structurally equal fresh copy. -/
def deepcopy (s : Sol) : Sol := s.map (fun row => row.map (fun x => x))

/-- `Environment.get_random_solutions(k)`.  The random draws of
`rnd.choice(popvals)` are embedded by an arbitrary choice oracle giving
the index drawn at each of the `k` draws (reduced mod the store size). -/
def get_random_solutions (pop : Pop) (k : Nat) (choice : Nat → Nat) : List Sol :=
  if h : pop.length = 0 then []
  else
    (List.range k).map (fun i =>
      deepcopy ((pop.map Prod.snd).get
        ⟨choice i % (pop.map Prod.snd).length,
         Nat.mod_lt _ (by simp only [List.length_map]; exact Nat.pos_of_ne_zero h)⟩))

/-- `Environment.add_solution`: evaluate against every registered fitness
criterion, in registration order, and store at the resulting key. -/
def add_solution (fitness : List (String × (Sol → Int))) (pop : Pop) (sol : Sol) : Pop :=
  dict_set pop (fitness.map (fun nf => (nf.1, nf.2 sol))) sol

/-- `Environment.run_agent(name)`: look the agent up (a `KeyError` is
`none`), sample its arity `k` of solutions, run it, store the result. -/
def run_agent (fitness : List (String × (Sol → Int)))
    (agents : List (String × ((List Sol → Sol) × Nat))) (pop : Pop)
    (name : String) (choice : Nat → Nat) : Option Pop :=
  match List.lookup name agents with
  | none => none
  | some (op, k) => some (add_solution fitness pop (op (get_random_solutions pop k choice)))

/-- `_reduce_nds` is a filter: it keeps exactly the members not dominated
by `p`. -/
lemma reduce_nds_eq (S : Finset EvalVec) (p : EvalVec) :
    reduce_nds S p = S.filter (fun q => dominates p q = false) := by
  ext x
  simp only [reduce_nds, Finset.mem_sdiff, Finset.mem_filter]
  constructor
  · rintro ⟨hx, hnd⟩
    refine ⟨hx, ?_⟩
    cases hd : dominates p x
    · rfl
    · exact absurd ⟨hx, hd⟩ hnd
  · rintro ⟨hx, hnd⟩
    exact ⟨hx, fun h => by rw [hnd] at h; exact Bool.false_ne_true h.2⟩

/-- Folding `_reduce_nds` over a key sequence removes exactly the members
dominated by some key of the sequence. -/
lemma foldl_reduce_nds (ps : List EvalVec) :
    ∀ S : Finset EvalVec,
      ps.foldl reduce_nds S = S.filter (fun q => ∀ p ∈ ps, dominates p q = false) := by
  induction ps with
  | nil => intro S; simp
  | cons p ps ih =>
      intro S
      rw [List.foldl_cons, ih, reduce_nds_eq, Finset.filter_filter]
      ext x
      simp only [Finset.mem_filter, List.mem_cons]
      constructor
      · rintro ⟨hx, hpd, hall⟩
        exact ⟨hx, fun r hr => by rcases hr with rfl | hr; exacts [hpd, hall r hr]⟩
      · rintro ⟨hx, hall⟩
        exact ⟨hx, hall p (Or.inl rfl), fun r hr => hall r (Or.inr hr)⟩

/-- The fold in `remove_dominated` computes `{q ∈ keys | no key of the
population dominates q}`. -/
lemma remove_dominated_keys_eq (keys : List EvalVec) :
    remove_dominated_keys keys =
      keys.toFinset.filter (fun q => ∀ p ∈ keys, dominates p q = false) := by
  unfold remove_dominated_keys
  exact foldl_reduce_nds keys keys.toFinset

/-- C1: for a population of evaluation-vector keys over the same ordered
objectives (all keys of one positive length), the fold of `_reduce_nds`
over the original key set, starting from the full key set, yields exactly
the non-dominated set: the keys `q` that no other key `p` of the
population dominates. -/
theorem remove_dominated_keys_is_nds (keys : List EvalVec) (n : Nat)
    (_hlen : ∀ k ∈ keys, k.length = n) (_hn : 0 < n) :
    remove_dominated_keys keys =
      keys.toFinset.filter
        (fun q => ∀ p ∈ keys.toFinset, p ≠ q → dominates p q = false) := by
  rw [remove_dominated_keys_eq]
  apply Finset.filter_congr
  intro q _
  constructor
  · intro hall p hp _
    exact hall p (List.mem_toFinset.mp hp)
  · intro hall p hp
    by_cases hpq : p = q
    · subst hpq; exact dominates_self p
    · exact hall p (List.mem_toFinset.mpr hp) hpq

/-- Witness for C1 on a concrete two-key population where the first key
dominates the second. -/
theorem remove_dominated_keys_is_nds_witness :
    (∀ k ∈ [[(("a" : String), (0 : Int))], [("a", 1)]], k.length = 1) ∧
      remove_dominated_keys [[(("a" : String), (0 : Int))], [("a", 1)]] =
        (([[(("a" : String), (0 : Int))], [("a", 1)]] : List EvalVec).toFinset.filter
          (fun q => ∀ p ∈ ([[(("a" : String), (0 : Int))], [("a", 1)]] : List EvalVec).toFinset,
            p ≠ q → dominates p q = false)) :=
  ⟨by decide, remove_dominated_keys_is_nds _ 1 (by decide) (by decide)⟩

/-- C8: the non-dominated-set computation is idempotent — re-applying the
`_reduce_nds` fold to its own output (listed out in any order) returns
the same set. -/
theorem remove_dominated_keys_idempotent (keys : List EvalVec) (n : Nat)
    (_hlen : ∀ k ∈ keys, k.length = n) (_hn : 0 < n) :
    remove_dominated_keys (remove_dominated_keys keys).toList =
      remove_dominated_keys keys := by
  rw [remove_dominated_keys_eq (remove_dominated_keys keys).toList,
    Finset.toList_toFinset]
  apply Finset.filter_true_of_mem
  intro q hq
  intro p hp
  have hq' := (remove_dominated_keys_eq keys) ▸ hq
  have hp' := (remove_dominated_keys_eq keys) ▸ (Finset.mem_toList.mp hp)
  exact (Finset.mem_filter.mp hq').2 p (List.mem_toFinset.mp (Finset.mem_filter.mp hp').1)

/-- Witness for C8 on the same concrete two-key population. -/
theorem remove_dominated_keys_idempotent_witness :
    (∀ k ∈ [[(("a" : String), (0 : Int))], [("a", 1)]], k.length = 1) ∧
      remove_dominated_keys
          (remove_dominated_keys [[(("a" : String), (0 : Int))], [("a", 1)]]).toList =
        remove_dominated_keys [[(("a" : String), (0 : Int))], [("a", 1)]] :=
  ⟨by decide, remove_dominated_keys_idempotent _ 1 (by decide) (by decide)⟩

/-- The diff list is the list of pairwise score differences of the zipped
vectors. -/
lemma score_diffs_eq_zip (p : EvalVec) :
    ∀ q : EvalVec, score_diffs p q = (p.zip q).map (fun pr => pr.2.2 - pr.1.2) := by
  induction p with
  | nil => intro q; simp [score_diffs]
  | cons x xs ih =>
      intro q
      cases q with
      | nil => simp [score_diffs]
      | cons y ys =>
          simp only [score_diffs, List.map_cons, List.zipWith_cons_cons, List.zip_cons_cons]
          have := ih ys
          simp only [score_diffs] at this
          rw [this]

/-- C2: `_dominates(p, q)` on equal-length vectors returns `True` iff every
paired score difference `q_i − p_i` is ≥ 0 and at least one is > 0 (pairs
taken in matching objective order). -/
theorem dominates_returns_true_iff (p q : EvalVec) (_h : p.length = q.length) :
    dominates_opt p q = some true ↔
      (∀ pr ∈ p.zip q, 0 ≤ pr.2.2 - pr.1.2) ∧ ∃ pr ∈ p.zip q, 0 < pr.2.2 - pr.1.2 := by
  rw [dominates_opt_iff, score_diffs_eq_zip]
  constructor
  · rintro ⟨hall, d, hd, hdpos⟩
    obtain ⟨pr, hpr, rfl⟩ := List.mem_map.mp hd
    exact ⟨fun pr' hpr' => hall _ (List.mem_map.mpr ⟨pr', hpr', rfl⟩), pr, hpr, hdpos⟩
  · rintro ⟨hall, pr, hpr, hpos⟩
    refine ⟨fun d hd => ?_, ?_⟩
    · obtain ⟨pr', hpr', rfl⟩ := List.mem_map.mp hd
      exact hall pr' hpr'
    · exact ⟨_, List.mem_map.mpr ⟨pr, hpr, rfl⟩, hpos⟩

/-- Witness for C2: a concrete dominating pair and the evaluated
right-hand side. -/
theorem dominates_returns_true_iff_witness :
    dominates_opt [(("a" : String), (0 : Int)), ("b", 3)] [("a", 0), ("b", 5)] = some true ↔
      (∀ pr ∈ ([(("a" : String), (0 : Int)), ("b", 3)] : EvalVec).zip [("a", 0), ("b", 5)],
          0 ≤ pr.2.2 - pr.1.2) ∧
        ∃ pr ∈ ([(("a" : String), (0 : Int)), ("b", 3)] : EvalVec).zip [("a", 0), ("b", 5)],
          0 < pr.2.2 - pr.1.2 :=
  dominates_returns_true_iff _ _ (by decide)

/-- C9: dominance is asymmetric on equal-length vectors and irreflexive:
`_dominates(p, q)` and `_dominates(q, p)` never both return `True`, and
`_dominates(p, p)` never returns `True`. -/
theorem dominates_asymm_irrefl :
    (∀ p q : EvalVec, p.length = q.length →
        ¬(dominates_opt p q = some true ∧ dominates_opt q p = some true)) ∧
      ∀ p : EvalVec, ¬dominates_opt p p = some true := by
  refine ⟨fun p q _ => dominates_asymm p q, fun p hp => ?_⟩
  obtain ⟨-, d, hd, hdpos⟩ := (dominates_opt_iff p p).mp hp
  have := score_diffs_self p d hd
  omega

/-- Witness for C9 at concrete vectors. -/
theorem dominates_asymm_irrefl_witness :
    ¬(dominates_opt [(("a" : String), (0 : Int))] [("a", 1)] = some true ∧
        dominates_opt [(("a" : String), (1 : Int))] [("a", 0)] = some true) :=
  dominates_asymm_irrefl.1 _ _ (by decide)

/-- Transitivity of "all pairwise differences are nonnegative", for lists
of equal length. -/
lemma zip_sub_nonneg_trans :
    ∀ (a b c : List Int), a.length = b.length → b.length = c.length →
      (∀ d ∈ List.zipWith (fun x y => y - x) a b, 0 ≤ d) →
      (∀ d ∈ List.zipWith (fun x y => y - x) b c, 0 ≤ d) →
      ∀ d ∈ List.zipWith (fun x y => y - x) a c, 0 ≤ d := by
  intro a
  induction a with
  | nil => intro b c _ _ _ _ d hd; simp at hd
  | cons x as ih =>
      intro b c hab hbc h1 h2 d hd
      cases b with
      | nil => simp at hab
      | cons y bs =>
          cases c with
          | nil => simp at hbc
          | cons z cs =>
              simp only [List.zipWith_cons_cons, List.mem_cons] at hd h1 h2
              rcases hd with rfl | hd
              · have hxy := h1 (y - x) (Or.inl rfl)
                have hyz := h2 (z - y) (Or.inl rfl)
                omega
              · exact ih bs cs (by simpa using hab) (by simpa using hbc)
                  (fun e he => h1 e (Or.inr he)) (fun e he => h2 e (Or.inr he)) d hd

/-- A strictly positive difference survives composition with a
nonnegative-difference step, for lists of equal length. -/
lemma zip_sub_pos_trans :
    ∀ (a b c : List Int), a.length = b.length → b.length = c.length →
      (∃ d ∈ List.zipWith (fun x y => y - x) a b, 0 < d) →
      (∀ d ∈ List.zipWith (fun x y => y - x) b c, 0 ≤ d) →
      ∃ d ∈ List.zipWith (fun x y => y - x) a c, 0 < d := by
  intro a
  induction a with
  | nil => intro b c _ _ h1 _; simp at h1
  | cons x as ih =>
      intro b c hab hbc h1 h2
      cases b with
      | nil => simp at hab
      | cons y bs =>
          cases c with
          | nil => simp at hbc
          | cons z cs =>
              simp only [List.zipWith_cons_cons, List.mem_cons] at h1 h2 ⊢
              obtain ⟨d, hd, hdpos⟩ := h1
              rcases hd with rfl | hd
              · have hyz := h2 (z - y) (Or.inl rfl)
                exact ⟨z - x, Or.inl rfl, by omega⟩
              · obtain ⟨e, he, hepos⟩ := ih bs cs (by simpa using hab) (by simpa using hbc)
                  ⟨d, hd, hdpos⟩ (fun e he => h2 e (Or.inr he))
                exact ⟨e, Or.inr he, hepos⟩

/-- Helper form of transitivity, shared by the claim theorems and by the
existence of a non-dominated member. -/
lemma dominates_opt_trans (p q r : EvalVec) (hpq : p.length = q.length)
    (hqr : q.length = r.length) (h1 : dominates_opt p q = some true)
    (h2 : dominates_opt q r = some true) : dominates_opt p r = some true := by
  rw [dominates_opt_iff] at h1 h2 ⊢
  obtain ⟨ha1, he1⟩ := h1
  obtain ⟨ha2, he2⟩ := h2
  simp only [score_diffs] at ha1 he1 ha2 he2 ⊢
  have lpq : (p.map Prod.snd).length = (q.map Prod.snd).length := by simp [hpq]
  have lqr : (q.map Prod.snd).length = (r.map Prod.snd).length := by simp [hqr]
  exact ⟨zip_sub_nonneg_trans _ _ _ lpq lqr ha1 ha2,
    zip_sub_pos_trans _ _ _ lpq lqr he1 ha2⟩

/-- C10: dominance is transitive on equal-length vectors: if
`_dominates(p, q)` and `_dominates(q, r)` both return `True` then so does
`_dominates(p, r)`. -/
theorem dominates_trans_claim (p q r : EvalVec) (hpq : p.length = q.length)
    (hqr : q.length = r.length) (h1 : dominates_opt p q = some true)
    (h2 : dominates_opt q r = some true) : dominates_opt p r = some true :=
  dominates_opt_trans p q r hpq hqr h1 h2

/-- Witness for C10 on a concrete dominating chain. -/
theorem dominates_trans_claim_witness :
    dominates_opt [(("a" : String), (0 : Int))] [("a", 2)] = some true :=
  dominates_trans_claim [("a", 0)] [("a", 1)] [("a", 2)] (by decide) (by decide)
    (by decide) (by decide)

/-- The Boolean predicate holds exactly when the call returns `True`. -/
lemma dominates_eq_true_iff (p q : EvalVec) :
    dominates p q = true ↔ dominates_opt p q = some true := by
  simp [dominates]

/-- Boolean form of transitivity for keys of one common length. -/
lemma dominates_trans_bool {p q r : EvalVec} (hpq : p.length = q.length)
    (hqr : q.length = r.length) (h1 : dominates p q = true)
    (h2 : dominates q r = true) : dominates p r = true := by
  rw [dominates_eq_true_iff] at h1 h2 ⊢
  exact dominates_opt_trans p q r hpq hqr h1 h2

/-- Every nonempty finite set of keys of one common length has a member
dominated by none of its members (dominance is irreflexive and
transitive, so a finite set has a minimal element). -/
lemma exists_nondominated :
    ∀ (N : Nat) (S : Finset EvalVec) (n : Nat), S.card ≤ N → S.Nonempty →
      (∀ k ∈ S, k.length = n) → ∃ m ∈ S, ∀ p ∈ S, dominates p m = false := by
  intro N
  induction N with
  | zero =>
      intro S n hcard hne _
      have := Finset.card_pos.mpr hne
      omega
  | succ N ih =>
      intro S n hcard hne hlen
      obtain ⟨x, hx⟩ := hne
      by_cases hmin : ∀ p ∈ S, dominates p x = false
      · exact ⟨x, hx, hmin⟩
      · push_neg at hmin
        obtain ⟨p₀, hp₀S, hp₀⟩ := hmin
        have hp₀t : dominates p₀ x = true := by
          cases hdx : dominates p₀ x
          · exact absurd hdx hp₀
          · rfl
        have hp₀ne : p₀ ≠ x := by
          rintro rfl
          rw [dominates_self] at hp₀t
          exact Bool.false_ne_true hp₀t
        have hp₀T : p₀ ∈ S.erase x := Finset.mem_erase.mpr ⟨hp₀ne, hp₀S⟩
        have hTcard : (S.erase x).card ≤ N := by
          have := Finset.card_erase_of_mem hx
          omega
        obtain ⟨m, hmT, hmmin⟩ := ih (S.erase x) n hTcard ⟨p₀, hp₀T⟩
          (fun k hk => hlen k (Finset.mem_of_mem_erase hk))
        have hmS : m ∈ S := Finset.mem_of_mem_erase hmT
        refine ⟨m, hmS, fun p hpS => ?_⟩
        by_cases hpx : p = x
        · subst hpx
          cases hdm : dominates p m
          · rfl
          · exfalso
            have htr : dominates p₀ m = true :=
              dominates_trans_bool ((hlen p₀ hp₀S).trans (hlen p hpS).symm)
                ((hlen p hpS).trans (hlen m hmS).symm) hp₀t hdm
            have := hmmin p₀ hp₀T
            rw [this] at htr
            exact Bool.false_ne_true htr
        · exact hmmin p (Finset.mem_erase.mpr ⟨hpx, hpS⟩)

/-- `filter_fits` with a failed constraints load raises as soon as there
is a key to test. -/
lemma filter_fits_none_of_ne_nil :
    ∀ l : List EvalVec, l ≠ [] → filter_fits none l = none := by
  intro l hl
  cases l with
  | nil => exact absurd rfl hl
  | cons k rest => rfl

/-- C4: on a nonempty population (keys over the same positive number of
objectives), a failed load of the constraints file (missing or malformed
`constraints.json`) makes `remove_dominated` raise — the error escapes
the reducer instead of constraint checking being skipped. -/
theorem remove_dominated_raises_on_bad_constraints (pop : Pop) (n : Nat)
    (hne : pop ≠ []) (hlen : ∀ kv ∈ pop, kv.1.length = n) (_hn : 0 < n) :
    remove_dominated pop none = none := by
  have hkeys : pop.map Prod.fst ≠ [] := by
    intro h
    exact hne (List.map_eq_nil_iff.mp h)
  have hlen' : ∀ k ∈ (pop.map Prod.fst).toFinset, k.length = n := by
    intro k hk
    obtain ⟨kv, hkv, rfl⟩ := List.mem_map.mp (List.mem_toFinset.mp hk)
    exact hlen kv hkv
  have hSne : (pop.map Prod.fst).toFinset.Nonempty := by
    obtain ⟨k, hk⟩ := List.exists_mem_of_ne_nil _ hkeys
    exact ⟨k, List.mem_toFinset.mpr hk⟩
  obtain ⟨m, hmS, hmmin⟩ := exists_nondominated (pop.map Prod.fst).toFinset.card
    (pop.map Prod.fst).toFinset n le_rfl hSne hlen'
  have hmnds : m ∈ remove_dominated_keys (pop.map Prod.fst) := by
    rw [remove_dominated_keys_eq]
    exact Finset.mem_filter.mpr
      ⟨hmS, fun p hp => hmmin p (List.mem_toFinset.mpr hp)⟩
  have hfil : (pop.map Prod.fst).filter
      (fun k => decide (k ∈ remove_dominated_keys (pop.map Prod.fst))) ≠ [] := by
    apply List.ne_nil_of_mem (a := m)
    rw [List.mem_filter]
    exact ⟨List.mem_toFinset.mp hmS, by simpa using hmnds⟩
  simp only [remove_dominated]
  rw [filter_fits_none_of_ne_nil _ hfil]

/-- Witness for C4 on a concrete one-member population. -/
theorem remove_dominated_raises_on_bad_constraints_witness :
    ([([(("a" : String), (0 : Int))], [[1]])] : Pop) ≠ [] ∧
      remove_dominated [([(("a" : String), (0 : Int))], [[1]])] none = none :=
  ⟨by decide, remove_dominated_raises_on_bad_constraints _ 1 (by decide)
    (by decide) (by decide)⟩

/-- Counterexample to C3: with the well-formed constraint mapping `{}`
(no configured maxima, so every pair of the key vacuously satisfies every
configured maximum) and key `[("a", 0)]`, the claim demands acceptance,
but `_fits_constraints` evaluates `data["a"]` on a mapping without the
key and raises `KeyError` (result `none`, not `True`). -/
theorem fits_constraints_missing_key_raises :
    fits_constraints (some []) [(("a" : String), (0 : Int))] = none := rfl

/-- C3 (amended): the constraint filter accepts `k` iff *every*
`(objective, score)` pair of `k` has its objective present in the
constraint mapping with `score ≤ maximum`; an objective absent from the
mapping is not unconstrained — when the loop reaches it, the filter
raises `KeyError` instead of passing it. -/
theorem fits_constraints_accepts_iff :
    (∀ (data : ConstraintData) (k : EvalVec),
        fits_constraints (some data) k = some true ↔
          ∀ pr ∈ k, ∃ m, List.lookup pr.1 data = some m ∧ pr.2 ≤ m) ∧
      ∀ (data : ConstraintData) (obj : String) (s : Int) (rest : EvalVec),
        List.lookup obj data = none →
          fits_constraints (some data) ((obj, s) :: rest) = none := by
  constructor
  · intro data k
    induction k with
    | nil => simp [fits_constraints, fits_loop]
    | cons pr rest ih =>
        simp only [fits_constraints] at ih ⊢
        cases hlk : List.lookup pr.1 data with
        | none =>
            simp only [fits_loop, hlk]
            constructor
            · intro h
              exact absurd h (by simp)
            · intro h
              obtain ⟨m, hm, -⟩ := h pr (List.mem_cons_self pr rest)
              rw [hlk] at hm
              exact absurd hm (by simp)
        | some m =>
            by_cases hms : m < pr.2
            · simp only [fits_loop, hlk, if_pos hms]
              constructor
              · intro h
                exact absurd h (by simp)
              · intro h
                exfalso
                obtain ⟨m', hm', hle⟩ := h pr (List.mem_cons_self pr rest)
                rw [hlk] at hm'
                have hval : m = m' := Option.some.inj hm'
                omega
            · simp only [fits_loop, hlk, if_neg hms, ih]
              constructor
              · intro h pr' hpr'
                rcases List.mem_cons.mp hpr' with rfl | hpr'
                · exact ⟨m, hlk, by omega⟩
                · exact h pr' hpr'
              · intro h pr' hpr'
                exact h pr' (List.mem_cons_of_mem pr hpr')
  · intro data obj s rest h
    simp [fits_constraints, fits_loop, h]

/-- Witness for the amended C3: a satisfied constraint accepts, an absent
objective raises. -/
theorem fits_constraints_accepts_iff_witness :
    fits_constraints (some [(("a" : String), (5 : Int))]) [("a", 3)] = some true ∧
      fits_constraints (some [(("b" : String), (5 : Int))]) [("a", 0), ("b", 9)] = none :=
  ⟨(fits_constraints_accepts_iff.1 [("a", 5)] [("a", 3)]).mpr (by
      intro pr hpr
      have hpr' : pr = (("a" : String), (3 : Int)) := by simpa using hpr
      subst hpr'
      refine ⟨5, by decide, by decide⟩),
    fits_constraints_accepts_iff.2 [("b", 5)] "a" 0 [("b", 9)] (by decide)⟩

/-- C5: when the checkpoint read or deserialization fails (`loaded =
none`), the exception is caught, the merge is a no-op, and the sync step
still prunes and writes: its result is exactly `remove_dominated` of the
unchanged in-memory population. -/
theorem sync_step_load_failure_noop :
    ∀ (pop : Pop) (src : Option ConstraintData),
      sync_merge pop none = pop ∧ sync_step pop none src = remove_dominated pop src :=
  fun _ _ => ⟨rfl, rfl⟩

/-- `deepcopy` returns a structurally equal matrix. -/
lemma deepcopy_eq (s : Sol) : deepcopy s = s := by
  simp [deepcopy]

/-- C6: on a nonempty store, sampling `k` solutions returns exactly `k`
solutions, each (a `deepcopy` of, hence equal to) some currently stored
solution — for any `k`, in particular `k = 2` with a single stored
solution (sampling is with replacement).  Memory aliasing is outside the
value-level embedding; `deepcopy` is a structurally equal fresh value. -/
theorem get_random_solutions_spec (pop : Pop) (k : Nat) (choice : Nat → Nat)
    (hne : pop ≠ []) :
    (get_random_solutions pop k choice).length = k ∧
      ∀ s ∈ get_random_solutions pop k choice, ∃ kv ∈ pop, s = kv.2 := by
  have hlen : ¬pop.length = 0 := fun h => hne (List.length_eq_zero.mp h)
  unfold get_random_solutions
  rw [dif_neg hlen]
  refine ⟨by simp, ?_⟩
  intro s hs
  simp only [List.mem_map, List.mem_range] at hs
  obtain ⟨i, -, rfl⟩ := hs
  have hlt : choice i % (pop.map Prod.snd).length < (pop.map Prod.snd).length :=
    Nat.mod_lt _ (by simp only [List.length_map]; exact Nat.pos_of_ne_zero hlen)
  have hmem : (pop.map Prod.snd).get ⟨choice i % (pop.map Prod.snd).length, hlt⟩ ∈
      pop.map Prod.snd := List.get_mem _ _ hlt
  obtain ⟨kv, hkv, hkv2⟩ := List.mem_map.mp hmem
  refine ⟨kv, hkv, ?_⟩
  rw [deepcopy_eq]
  exact hkv2.symm

/-- Witness for C6: an agent of arity `k = 2` on a store with one distinct
solution still receives exactly 2 solutions, both the stored one. -/
theorem get_random_solutions_spec_witness :
    ([([(("a" : String), (1 : Int))], [[1, 0]])] : Pop) ≠ [] ∧
      (get_random_solutions [([(("a" : String), (1 : Int))], [[1, 0]])] 2
          (fun _ => 0)).length = 2 ∧
      ∀ s ∈ get_random_solutions [([(("a" : String), (1 : Int))], [[1, 0]])] 2
          (fun _ => 0), ∃ kv ∈ ([([(("a" : String), (1 : Int))], [[1, 0]])] : Pop),
        s = kv.2 :=
  ⟨by decide, get_random_solutions_spec _ 2 (fun _ => 0) (by decide)⟩

/-- C7: sampling from an empty store returns the empty list for every
`k ≥ 0` (and raises nothing). -/
theorem get_random_solutions_empty :
    ∀ (k : Nat) (choice : Nat → Nat), get_random_solutions [] k choice = [] :=
  fun _ _ => rfl
